import Mathlib

set_option linter.unusedSectionVars false

/-!
# Verification of the chained hash table (`src/Code/hashtable.py`)

Shallow embedding of the `HashTable` class of `hashtable.py`: a fixed array of
chains (linked lists of key-value pairs), routing each key to a chain via
`hash(key) % len(buckets)`.  Keys and values are type parameters with decidable
equality; the Python `hash` builtin is a parameter `hash : K → Int` (Python
hashes are signed integers, and Python's `%` with a positive modulus matches
`Int.emod`).

Fallible operations are embedded with an explicit error type: `KeyError`
(raised by `get`/`delete`), `ValueError` (raised by the chain-level delete) and
`ZeroDivisionError` (raised by `hash(key) % 0` when the bucket array is empty).
The mutating operations `set` and `delete` return the table state paired with
the outcome, so that the state at the moment an exception propagates is
captured exactly (mutations performed before a raise persist).

`linkedlist.py` is imported by `hashtable.py` but is not among the sources;
the chain operations are modelled from the spec (section 4.1).
-/

/-- The three exception kinds the embedded operations can raise:
`KeyError` ("Key not found"), `ValueError` (chain-level "not found"), and
`ZeroDivisionError` (from `hash(key) % 0`). -/
inductive Err where
  | keyNotFound
  | valueNotFound
  | zeroDivision
  deriving DecidableEq, Repr

/-- Decidable equality of outcomes, so that concrete runs of the embedded
operations can be checked by evaluation. -/
instance {ε α : Type} [DecidableEq ε] [DecidableEq α] :
    DecidableEq (Except ε α)
  | .ok x, .ok y => decidable_of_iff (x = y) (by simp)
  | .ok _, .error _ => isFalse (by simp)
  | .error _, .ok _ => isFalse (by simp)
  | .error e, .error f => decidable_of_iff (e = f) (by simp)

/-- Modelled from the spec: `linkedlist.py` is missing from the sources; per
spec section 3, a Chain is an ordered sequence of (key, value) entries with
insertion order preserved, so it is embedded as a `List`.  `Chain.items()`
returns the entries in insertion order (the list itself) and `Chain.length()`
is the number of entries (`List.length`). -/
abbrev Chain (K V : Type) := List (K × V)

/-- Modelled from the spec: `Chain.append(entry)` adds the entry at the tail
and always succeeds (spec section 4.1). -/
def chainAppend {K V : Type} (c : Chain K V) (e : K × V) : Chain K V :=
  c ++ [e]

/-- Modelled from the spec: `Chain.delete(entry)` removes the first entry equal
(by value equality on the full pair) to the given entry, and fails with
`ValueNotFound` when no entry matches (spec section 4.1). -/
def chainDelete {K V : Type} [DecidableEq K] [DecidableEq V]
    (e : K × V) : Chain K V → Except Err (Chain K V)
  | [] => .error .valueNotFound
  | x :: xs => if x = e then .ok xs else (chainDelete e xs).map (x :: ·)

/-- The hash table state: `self.buckets`, a fixed-size array of chains. -/
structure HashTable (K V : Type) where
  buckets : List (Chain K V)
  deriving DecidableEq, Repr

namespace HashTable

variable {K V : Type} [DecidableEq K] [DecidableEq V]

/-- `HashTable.__init__(init_size)`:
`self.buckets = [LinkedList() for _ in range(init_size)]`.
Python's `range(n)` is empty for `n ≤ 0`, hence `Int.toNat`. -/
def new (initSize : Int) : HashTable K V :=
  ⟨List.replicate initSize.toNat []⟩

/-- `HashTable._bucket_index(key)`: `hash(key) % len(self.buckets)`.
When the bucket array is empty, Python's `%` raises `ZeroDivisionError`;
otherwise, for a positive modulus, Python's `%` is `Int.emod` (result in
`[0, len)`). -/
def bucketIndex (hash : K → Int) (t : HashTable K V) (key : K) : Except Err Nat :=
  if t.buckets.length = 0 then .error .zeroDivision
  else .ok ((hash key) % (t.buckets.length : Int)).toNat

/-- `HashTable.get_bucket(key)`: `self.buckets[self._bucket_index(key)]`. -/
def getBucket (hash : K → Int) (t : HashTable K V) (key : K) : Except Err (Chain K V) :=
  (t.bucketIndex hash key).map (fun i => t.buckets.getD i [])

/-- `HashTable.items()`: extends an accumulator with each bucket's items. -/
def items (t : HashTable K V) : List (K × V) :=
  t.buckets.foldl (fun acc b => acc ++ b) []

/-- `HashTable.keys()`: appends the key of every entry of every bucket. -/
def keys (t : HashTable K V) : List K :=
  t.buckets.foldl (fun acc b => acc ++ b.map Prod.fst) []

/-- `HashTable.values()`: appends the value of every entry of every bucket. -/
def values (t : HashTable K V) : List V :=
  t.buckets.foldl (fun acc b => acc ++ b.map Prod.snd) []

/-- `HashTable.length()`: `size += bucket.length()` over all buckets. -/
def length (t : HashTable K V) : Nat :=
  t.buckets.foldl (fun size b => size + b.length) 0

/-- `HashTable.contains(key)`: scans the target bucket, returning `True` on
the first entry whose key equals `key`, else `False`. -/
def contains (hash : K → Int) (t : HashTable K V) (key : K) : Except Err Bool :=
  (t.getBucket hash key).map (fun b => b.any (fun e => decide (e.1 = key)))

/-- `HashTable.get(key)`: scans the target bucket, returning the value of the
first entry whose key equals `key`; raises `KeyError` when the scan exhausts. -/
def get (hash : K → Int) (t : HashTable K V) (key : K) : Except Err V :=
  match t.getBucket hash key with
  | .error e => .error e
  | .ok b =>
    match b.find? (fun e => decide (e.1 = key)) with
    | some e => .ok e.2
    | none => .error .keyNotFound

/-- The loop body of `HashTable.set` when the key is contained: iterate over a
snapshot of the bucket's items (Python's `bucket.items()` builds a fresh list);
for each snapshot entry whose key matches, delete that exact pair from the live
chain and append the new pair.  A chain-delete failure propagates, leaving the
chain as mutated so far. -/
def runSets (key : K) (val : V) :
    List (K × V) → Chain K V → Chain K V × Except Err Unit
  | [], chain => (chain, .ok ())
  | (ck, cv) :: rest, chain =>
    if ck = key then
      match chainDelete (ck, cv) chain with
      | .error e => (chain, .error e)
      | .ok chain2 => runSets key val rest (chainAppend chain2 (key, val))
    else runSets key val rest chain

/-- `HashTable.set(key, value)`: find-then-delete-then-append.  Computes the
target bucket; when `contains(key)` is true, runs the delete/append loop over
a snapshot of the bucket; otherwise appends `(key, value)` directly. -/
def set (hash : K → Int) (t : HashTable K V) (key : K) (val : V) :
    HashTable K V × Except Err Unit :=
  match t.bucketIndex hash key with
  | .error e => (t, .error e)
  | .ok i =>
    let b := t.buckets.getD i []
    match t.contains hash key with
    | .error e => (t, .error e)
    | .ok true =>
      let r := runSets key val b b
      (⟨t.buckets.set i r.1⟩, r.2)
    | .ok false => (⟨t.buckets.set i (chainAppend b (key, val))⟩, .ok ())

/-- The loop body of `HashTable.delete` when the key is contained: iterate over
a snapshot of the bucket's items; for each snapshot entry whose key matches,
delete that exact pair from the live chain.  A chain-delete failure propagates,
leaving the chain as mutated so far. -/
def runDels (key : K) :
    List (K × V) → Chain K V → Chain K V × Except Err Unit
  | [], chain => (chain, .ok ())
  | (ck, cv) :: rest, chain =>
    if ck = key then
      match chainDelete (ck, cv) chain with
      | .error e => (chain, .error e)
      | .ok chain2 => runDels key rest chain2
    else runDels key rest chain

/-- `HashTable.delete(key)`: computes the target bucket; when `contains(key)`
is true, runs the delete loop over a snapshot of the bucket; otherwise raises
`KeyError` without touching the table. -/
def delete (hash : K → Int) (t : HashTable K V) (key : K) :
    HashTable K V × Except Err Unit :=
  match t.bucketIndex hash key with
  | .error e => (t, .error e)
  | .ok i =>
    let b := t.buckets.getD i []
    match t.contains hash key with
    | .error e => (t, .error e)
    | .ok true =>
      let r := runDels key b b
      (⟨t.buckets.set i r.1⟩, r.2)
    | .ok false => (t, .error .keyNotFound)

end HashTable

/-- The entries of a chain whose key differs from `key`; with at most one entry
per key this is the chain with `key`'s entry removed. -/
def removeKey {K V : Type} [DecidableEq K] (key : K) (b : Chain K V) : Chain K V :=
  b.filter (fun e => decide (¬ e.1 = key))

/-- Each bucket's keys are pairwise distinct. -/
def KeysNodup {K V : Type} (t : HashTable K V) : Prop :=
  ∀ b ∈ t.buckets, (b.map Prod.fst).Nodup

/-- Every entry sits in the bucket its key hashes to. -/
def Placed {K V : Type} [DecidableEq K] [DecidableEq V]
    (hash : K → Int) (t : HashTable K V) : Prop :=
  ∀ i, ∀ h : i < t.buckets.length, ∀ e ∈ t.buckets.get ⟨i, h⟩,
    t.bucketIndex hash e.1 = .ok i

/-- The well-formedness invariant maintained by every operation. -/
def WF {K V : Type} [DecidableEq K] [DecidableEq V]
    (hash : K → Int) (t : HashTable K V) : Prop :=
  KeysNodup t ∧ Placed hash t

/-- The reachable hash-table states: a fresh construction followed by any
sequence of successful `set` / `delete` calls. -/
inductive Reachable {K V : Type} [DecidableEq K] [DecidableEq V]
    (hash : K → Int) : HashTable K V → Prop where
  | new (n : Int) : Reachable hash (HashTable.new n)
  | step_set {t t' : HashTable K V} {k : K} {v : V} :
      Reachable hash t → t.set hash k v = (t', .ok ()) → Reachable hash t'
  | step_del {t t' : HashTable K V} {k : K} :
      Reachable hash t → t.delete hash k = (t', .ok ()) → Reachable hash t'

/-- Python's `hash` on small non-negative machine integers is the identity;
used to instantiate the development at `K = Nat` for concrete witnesses. -/
def natHash (n : Nat) : Int := (n : Int)

namespace HashTable

variable {K V : Type} [DecidableEq K] [DecidableEq V]

/-- The bucket index `_bucket_index` computes when the bucket array is
non-empty. -/
def hidx (hash : K → Int) (t : HashTable K V) (key : K) : Nat :=
  ((hash key) % (t.buckets.length : Int)).toNat

/-- Abstract description of the table a successful `set(key, val)` produces:
the target bucket loses every entry carrying `key` and gains `(key, val)` at
its tail; every other bucket is untouched. -/
def setResult (hash : K → Int) (t : HashTable K V) (key : K) (val : V) :
    HashTable K V :=
  ⟨t.buckets.set (t.hidx hash key)
    (removeKey key (t.buckets.getD (t.hidx hash key) []) ++ [(key, val)])⟩

/-- Abstract description of the table a successful `delete(key)` produces:
the target bucket loses every entry carrying `key`; every other bucket is
untouched. -/
def delResult (hash : K → Int) (t : HashTable K V) (key : K) : HashTable K V :=
  ⟨t.buckets.set (t.hidx hash key)
    (removeKey key (t.buckets.getD (t.hidx hash key) []))⟩

/-- Iterated `set`: the table after `set(k, v)` for each pair in order
(keeping the state component of each call). -/
def setMany (hash : K → Int) (t : HashTable K V) (ps : List (K × V)) :
    HashTable K V :=
  ps.foldl (fun t p => (t.set hash p.1 p.2).1) t

/-- Iterated `delete`: the table after `delete(k)` for each key in order
(keeping the state component of each call). -/
def deleteMany (hash : K → Int) (t : HashTable K V) (ks : List K) :
    HashTable K V :=
  ks.foldl (fun t k => (t.delete hash k).1) t

end HashTable

/-! ## Basic lemmas about the embedded operations -/

namespace HashTable

variable {K V : Type} [DecidableEq K] [DecidableEq V] {hash : K → Int}

theorem foldl_append_eq (L : List (List (K × V))) (acc : List (K × V)) :
    L.foldl (fun a b => a ++ b) acc = acc ++ L.flatten := by
  induction L generalizing acc with
  | nil => simp
  | cons b L ih => simp [List.foldl_cons, ih]

theorem items_eq (t : HashTable K V) : t.items = t.buckets.flatten := by
  simp [items, foldl_append_eq]

theorem foldl_append_map_eq {α : Type} (f : K × V → α)
    (L : List (List (K × V))) (acc : List α) :
    L.foldl (fun a b => a ++ b.map f) acc = acc ++ (L.map (List.map f)).flatten := by
  induction L generalizing acc with
  | nil => simp
  | cons b L ih => simp [List.foldl_cons, ih]

theorem keys_eq (t : HashTable K V) : t.keys = t.items.map Prod.fst := by
  simp [keys, items_eq, foldl_append_map_eq]

theorem foldl_add_length_eq (L : List (List (K × V))) (n : Nat) :
    L.foldl (fun s b => s + b.length) n = n + (L.map List.length).sum := by
  induction L generalizing n with
  | nil => simp
  | cons b L ih => simp [List.foldl_cons, ih]; omega

theorem length_eq (t : HashTable K V) :
    t.length = (t.buckets.map List.length).sum := by
  simp [length, foldl_add_length_eq]

theorem bucketIndex_of_pos (t : HashTable K V) (key : K)
    (h : 0 < t.buckets.length) :
    t.bucketIndex hash key = .ok ((hash key % (t.buckets.length : Int)).toNat) := by
  simp [bucketIndex, Nat.pos_iff_ne_zero.mp h]

theorem bucketIndex_lt (t : HashTable K V) (key : K) {i : Nat}
    (h : t.bucketIndex hash key = .ok i) : i < t.buckets.length := by
  by_cases h0 : t.buckets.length = 0
  · simp [bucketIndex, h0] at h
  · rw [bucketIndex, if_neg h0] at h
    cases h
    have hpos : (0 : Int) < (t.buckets.length : Int) := by
      exact_mod_cast Nat.pos_of_ne_zero h0
    have h1 : 0 ≤ hash key % (t.buckets.length : Int) :=
      Int.emod_nonneg _ (by exact_mod_cast h0)
    have h2 : hash key % (t.buckets.length : Int) < (t.buckets.length : Int) :=
      Int.emod_lt_of_pos _ hpos
    omega

theorem bucketIndex_zero (t : HashTable K V) (key : K)
    (h : t.buckets.length = 0) :
    t.bucketIndex hash key = .error .zeroDivision := by
  simp [bucketIndex, h]

theorem bucketIndex_congr (t t2 : HashTable K V) (key : K)
    (h : t.buckets.length = t2.buckets.length) :
    t.bucketIndex hash key = t2.bucketIndex hash key := by
  simp [bucketIndex, h]

theorem getD_eq_get {α : Type} (l : List α) (d : α) {i : Nat} (h : i < l.length) :
    l.getD i d = l.get ⟨i, h⟩ := by
  simp [List.getD_eq_getElem?_getD, List.getElem?_eq_getElem h]

end HashTable

/-! ## Chain-level lemmas -/

theorem chainDelete_cons_self {K V : Type} [DecidableEq K] [DecidableEq V]
    (e : K × V) (l : Chain K V) : chainDelete e (e :: l) = .ok l := by
  simp [chainDelete]

theorem chainDelete_append_sep {K V : Type} [DecidableEq K] [DecidableEq V]
    (e : K × V) (l₁ l₂ : Chain K V) (h : e ∉ l₁) :
    chainDelete e (l₁ ++ e :: l₂) = .ok (l₁ ++ l₂) := by
  induction l₁ with
  | nil => simp [chainDelete]
  | cons x l₁ ih =>
    have hxe : ¬ x = e := fun hx => h (hx ▸ List.mem_cons_self x l₁)
    have h' : e ∉ l₁ := fun hm => h (List.mem_cons_of_mem x hm)
    simp only [List.cons_append, chainDelete, if_neg hxe, List.append_eq, ih h',
      Except.map]

theorem chainDelete_eq_erase {K V : Type} [DecidableEq K] [DecidableEq V]
    (e : K × V) (l : Chain K V) (h : e ∈ l) :
    chainDelete e l = .ok (l.erase e) := by
  induction l with
  | nil => cases h
  | cons x l ih =>
    by_cases hx : x = e
    · subst hx
      simp [chainDelete, List.erase_cons_head]
    · have h' : e ∈ l := by
        cases List.mem_cons.mp h with
        | inl h1 => exact absurd h1.symm hx
        | inr h2 => exact h2
      have hbeq : ¬ (x == e) = true := by simp [hx]
      simp [chainDelete, hx, ih h', List.erase_cons_tail, hbeq, Except.map]

theorem chainDelete_mem_of_ok {K V : Type} [DecidableEq K] [DecidableEq V]
    {e : K × V} {l l' : Chain K V} (h : chainDelete e l = .ok l') : e ∈ l := by
  induction l generalizing l' with
  | nil => simp [chainDelete] at h
  | cons x l ih =>
    by_cases hx : x = e
    · exact hx ▸ List.mem_cons_self x l
    · rw [chainDelete, if_neg hx] at h
      cases hd : chainDelete e l with
      | error er => rw [hd] at h; simp [Except.map] at h
      | ok l2 => exact List.mem_cons_of_mem x (ih hd)

/-! ## Loop lemmas for `set` and `delete` -/

namespace HashTable

variable {K V : Type} [DecidableEq K] [DecidableEq V] {hash : K → Int}

theorem runSets_skip (key : K) (val : V) (s : List (K × V)) (chain : Chain K V)
    (h : ∀ x ∈ s, ¬ x.1 = key) :
    runSets key val s chain = (chain, .ok ()) := by
  induction s with
  | nil => rfl
  | cons x rest ih =>
    obtain ⟨ck, cv⟩ := x
    have hck : ¬ ck = key := h (ck, cv) (List.mem_cons_self _ _)
    simp only [runSets, if_neg hck]
    exact ih fun x hx => h x (List.mem_cons_of_mem _ hx)

theorem runSets_append (key : K) (val : V) (s₁ s₂ : List (K × V))
    (chain : Chain K V) (h : ∀ x ∈ s₁, ¬ x.1 = key) :
    runSets key val (s₁ ++ s₂) chain = runSets key val s₂ chain := by
  induction s₁ generalizing chain with
  | nil => rfl
  | cons x rest ih =>
    obtain ⟨ck, cv⟩ := x
    have hck : ¬ ck = key := h (ck, cv) (List.mem_cons_self _ _)
    simp only [List.cons_append, runSets, if_neg hck]
    exact ih _ fun x hx => h x (List.mem_cons_of_mem _ hx)

theorem runDels_skip (key : K) (s : List (K × V)) (chain : Chain K V)
    (h : ∀ x ∈ s, ¬ x.1 = key) :
    runDels key s chain = (chain, .ok ()) := by
  induction s with
  | nil => rfl
  | cons x rest ih =>
    obtain ⟨ck, cv⟩ := x
    have hck : ¬ ck = key := h (ck, cv) (List.mem_cons_self _ _)
    simp only [runDels, if_neg hck]
    exact ih fun x hx => h x (List.mem_cons_of_mem _ hx)

theorem runDels_append (key : K) (s₁ s₂ : List (K × V))
    (chain : Chain K V) (h : ∀ x ∈ s₁, ¬ x.1 = key) :
    runDels key (s₁ ++ s₂) chain = runDels key s₂ chain := by
  induction s₁ generalizing chain with
  | nil => rfl
  | cons x rest ih =>
    obtain ⟨ck, cv⟩ := x
    have hck : ¬ ck = key := h (ck, cv) (List.mem_cons_self _ _)
    simp only [List.cons_append, runDels, if_neg hck]
    exact ih _ fun x hx => h x (List.mem_cons_of_mem _ hx)

theorem runSets_found (key : K) (val : V) (cv : V) (b₁ b₂ : Chain K V)
    (h₁ : ∀ x ∈ b₁, ¬ x.1 = key) (h₂ : ∀ x ∈ b₂, ¬ x.1 = key) :
    runSets key val (b₁ ++ (key, cv) :: b₂) (b₁ ++ (key, cv) :: b₂) =
      (b₁ ++ b₂ ++ [(key, val)], .ok ()) := by
  rw [runSets_append key val b₁ _ _ h₁]
  have hmem : (key, cv) ∉ b₁ := fun hm => h₁ _ hm rfl
  simp only [runSets, if_pos rfl, chainDelete_append_sep _ _ _ hmem, chainAppend]
  exact runSets_skip key val b₂ _ h₂

theorem runDels_found (key : K) (cv : V) (b₁ b₂ : Chain K V)
    (h₁ : ∀ x ∈ b₁, ¬ x.1 = key) (h₂ : ∀ x ∈ b₂, ¬ x.1 = key) :
    runDels key (b₁ ++ (key, cv) :: b₂) (b₁ ++ (key, cv) :: b₂) =
      (b₁ ++ b₂, .ok ()) := by
  rw [runDels_append key b₁ _ _ h₁]
  have hmem : (key, cv) ∉ b₁ := fun hm => h₁ _ hm rfl
  simp only [runDels, if_pos rfl, chainDelete_append_sep _ _ _ hmem]
  exact runDels_skip key b₂ _ h₂

end HashTable

/-! ## First-occurrence decomposition and `removeKey` -/

theorem exists_first_key {K V : Type} (key : K) (b : Chain K V)
    (h : ∃ e ∈ b, e.1 = key) :
    ∃ b₁ cv b₂, b = b₁ ++ (key, cv) :: b₂ ∧ ∀ x ∈ b₁, ¬ x.1 = key := by
  classical
  induction b with
  | nil => simp at h
  | cons x rest ih =>
    by_cases hx : x.1 = key
    · refine ⟨[], x.2, rest, ?_, by simp⟩
      simp [← hx]
    · obtain ⟨e, he, hek⟩ := h
      cases List.mem_cons.mp he with
      | inl h1 => exact absurd (h1 ▸ hek) hx
      | inr h2 =>
        obtain ⟨b₁, cv, b₂, hb, hb₁⟩ := ih ⟨e, h2, hek⟩
        refine ⟨x :: b₁, cv, b₂, by simp [hb], ?_⟩
        intro y hy
        cases List.mem_cons.mp hy with
        | inl h1 => exact h1 ▸ hx
        | inr h2 => exact hb₁ y h2

theorem no_key_right_of_nodup {K V : Type} {key : K} {cv : V} {b₁ b₂ : Chain K V}
    (hnd : ((b₁ ++ (key, cv) :: b₂).map Prod.fst).Nodup) :
    ∀ x ∈ b₂, ¬ x.1 = key := by
  intro x hx hxk
  rw [List.map_append, List.map_cons] at hnd
  have h1 := (List.nodup_append.mp hnd).2.1
  have h2 : key ∈ b₂.map Prod.fst := List.mem_map.mpr ⟨x, hx, hxk⟩
  exact (List.nodup_cons.mp h1).1 h2

theorem removeKey_eq_self {K V : Type} [DecidableEq K] {key : K} {b : Chain K V}
    (h : ∀ x ∈ b, ¬ x.1 = key) : removeKey key b = b :=
  List.filter_eq_self.mpr fun x hx => by simpa using h x hx

theorem removeKey_sep {K V : Type} [DecidableEq K] (key : K) (cv : V)
    (b₁ b₂ : Chain K V) (h₁ : ∀ x ∈ b₁, ¬ x.1 = key) (h₂ : ∀ x ∈ b₂, ¬ x.1 = key) :
    removeKey key (b₁ ++ (key, cv) :: b₂) = b₁ ++ b₂ := by
  simp only [removeKey, List.filter_append, List.filter_cons]
  rw [← removeKey, ← removeKey, removeKey_eq_self h₁, removeKey_eq_self h₂]
  simp

theorem removeKey_no_key {K V : Type} [DecidableEq K] (key : K) (b : Chain K V) :
    ∀ x ∈ removeKey key b, ¬ x.1 = key := by
  intro x hx
  have := List.of_mem_filter hx
  simpa using this

/-! ## Characterization of the table-level operations on well-formed states -/

namespace HashTable

variable {K V : Type} [DecidableEq K] [DecidableEq V] {hash : K → Int}

theorem hidx_lt (t : HashTable K V) (key : K) (h : 0 < t.buckets.length) :
    t.hidx hash key < t.buckets.length :=
  t.bucketIndex_lt key (bucketIndex_of_pos t key h)

theorem bucket_mem (t : HashTable K V) (key : K) (h : 0 < t.buckets.length) :
    t.buckets.getD (t.hidx hash key) [] ∈ t.buckets := by
  rw [getD_eq_get _ _ (t.hidx_lt key h)]
  exact List.get_mem _ _ _

theorem contains_eq_any (t : HashTable K V) (key : K)
    (hpos : 0 < t.buckets.length) :
    t.contains hash key =
      .ok ((t.buckets.getD (t.hidx hash key) []).any (fun e => decide (e.1 = key))) := by
  simp [contains, getBucket, bucketIndex_of_pos t key hpos, hidx, Except.map]

theorem get_eq_find (t : HashTable K V) (key : K)
    (hpos : 0 < t.buckets.length) :
    t.get hash key =
      match (t.buckets.getD (t.hidx hash key) []).find? (fun e => decide (e.1 = key)) with
      | some e => .ok e.2
      | none => .error .keyNotFound := by
  rw [get, getBucket, bucketIndex_of_pos t key hpos]
  rfl

theorem set_eq_of_nodup (t : HashTable K V) (key : K) (val : V)
    (hnd : KeysNodup t) (hpos : 0 < t.buckets.length) :
    t.set hash key val = (t.setResult hash key val, .ok ()) := by
  have hhidx : ((hash key) % (t.buckets.length : Int)).toNat = t.hidx hash key := rfl
  rw [set, bucketIndex_of_pos t key hpos, contains_eq_any t key hpos]
  cases hany : (t.buckets.getD (t.hidx hash key) []).any (fun e => decide (e.1 = key)) with
  | false =>
    have habs : ∀ x ∈ t.buckets.getD (t.hidx hash key) [], ¬ x.1 = key := by
      intro x hx
      simpa using List.any_eq_false.mp hany x hx
    simp only [hhidx, setResult, removeKey_eq_self habs, chainAppend]
  | true =>
    have hex : ∃ e ∈ t.buckets.getD (t.hidx hash key) [], e.1 = key := by
      obtain ⟨e, he, hek⟩ := List.any_eq_true.mp hany
      exact ⟨e, he, by simpa using hek⟩
    obtain ⟨b₁, cv, b₂, hb, h₁⟩ := exists_first_key key _ hex
    have hbnd : ((t.buckets.getD (t.hidx hash key) []).map Prod.fst).Nodup :=
      hnd _ (bucket_mem t key hpos)
    have h₂ : ∀ x ∈ b₂, ¬ x.1 = key := no_key_right_of_nodup (hb ▸ hbnd)
    simp only [hhidx, hb, runSets_found key val cv b₁ b₂ h₁ h₂, setResult,
      removeKey_sep key cv b₁ b₂ h₁ h₂, List.append_assoc]

theorem delete_eq_of_mem (t : HashTable K V) (key : K)
    (hnd : KeysNodup t) (hpos : 0 < t.buckets.length)
    (hmem : ∃ e ∈ t.buckets.getD (t.hidx hash key) [], e.1 = key) :
    t.delete hash key = (t.delResult hash key, .ok ()) := by
  have hhidx : ((hash key) % (t.buckets.length : Int)).toNat = t.hidx hash key := rfl
  rw [delete, bucketIndex_of_pos t key hpos, contains_eq_any t key hpos]
  have hany : (t.buckets.getD (t.hidx hash key) []).any
      (fun e => decide (e.1 = key)) = true := by
    obtain ⟨e, he, hek⟩ := hmem
    exact List.any_eq_true.mpr ⟨e, he, by simpa using hek⟩
  rw [hany]
  obtain ⟨b₁, cv, b₂, hb, h₁⟩ := exists_first_key key _ hmem
  have hbnd : ((t.buckets.getD (t.hidx hash key) []).map Prod.fst).Nodup :=
    hnd _ (bucket_mem t key hpos)
  have h₂ : ∀ x ∈ b₂, ¬ x.1 = key := no_key_right_of_nodup (hb ▸ hbnd)
  simp only [hhidx, hb, runDels_found key cv b₁ b₂ h₁ h₂, delResult,
    removeKey_sep key cv b₁ b₂ h₁ h₂]

theorem delete_eq_of_not_mem (t : HashTable K V) (key : K)
    (hpos : 0 < t.buckets.length)
    (habs : ∀ e ∈ t.buckets.getD (t.hidx hash key) [], ¬ e.1 = key) :
    t.delete hash key = (t, .error .keyNotFound) := by
  rw [delete, bucketIndex_of_pos t key hpos, contains_eq_any t key hpos]
  have hany : (t.buckets.getD (t.hidx hash key) []).any
      (fun e => decide (e.1 = key)) = false := by
    apply List.any_eq_false.mpr
    intro x hx
    simpa using habs x hx
  rw [hany]

end HashTable

/-! ## Keys, membership, and the global uniqueness invariant -/

namespace HashTable

variable {K V : Type} [DecidableEq K] [DecidableEq V] {hash : K → Int}

theorem mem_keys_iff (t : HashTable K V) (x : K) :
    x ∈ t.keys ↔ ∃ b ∈ t.buckets, ∃ e ∈ b, e.1 = x := by
  rw [keys_eq, items_eq]
  simp only [List.mem_map, List.mem_flatten]
  constructor
  · rintro ⟨e, ⟨b, hb, he⟩, hex⟩
    exact ⟨b, hb, e, he, hex⟩
  · rintro ⟨b, hb, e, he, hex⟩
    exact ⟨e, ⟨b, hb, he⟩, hex⟩

theorem mem_keys_iff_get (t : HashTable K V) (x : K) :
    x ∈ t.keys ↔
      ∃ j, ∃ hj : j < t.buckets.length, ∃ e ∈ t.buckets.get ⟨j, hj⟩, e.1 = x := by
  rw [mem_keys_iff]
  constructor
  · rintro ⟨b, hb, e, he, hex⟩
    obtain ⟨⟨j, hj⟩, hget⟩ := List.mem_iff_get.mp hb
    exact ⟨j, hj, e, hget ▸ he, hex⟩
  · rintro ⟨j, hj, e, he, hex⟩
    exact ⟨t.buckets.get ⟨j, hj⟩, List.get_mem _ _ _, e, he, hex⟩

theorem mem_bucket_of_mem_keys (t : HashTable K V) (key : K)
    (hp : Placed hash t) (hpos : 0 < t.buckets.length) (hk : key ∈ t.keys) :
    ∃ e ∈ t.buckets.getD (t.hidx hash key) [], e.1 = key := by
  obtain ⟨j, hj, e, he, hek⟩ := (mem_keys_iff_get t key).mp hk
  have hpl := hp j hj e he
  rw [hek, bucketIndex_of_pos t key hpos] at hpl
  have hij : t.hidx hash key = j := Except.ok.inj hpl
  have hfin : (⟨t.hidx hash key, t.hidx_lt key hpos⟩ : Fin t.buckets.length)
      = ⟨j, hj⟩ := Fin.ext hij
  rw [getD_eq_get _ _ (t.hidx_lt key hpos), hfin]
  exact ⟨e, he, hek⟩

theorem mem_keys_of_mem_bucket (t : HashTable K V) (key : K)
    (hpos : 0 < t.buckets.length) {e : K × V}
    (he : e ∈ t.buckets.getD (t.hidx hash key) []) (hek : e.1 = key) :
    key ∈ t.keys :=
  (mem_keys_iff t key).mpr ⟨_, bucket_mem t key hpos, e, he, hek⟩

theorem keys_nodup_of_wf (t : HashTable K V) (hw : WF hash t) :
    t.keys.Nodup := by
  rw [keys_eq, items_eq, List.map_flatten]
  apply List.nodup_flatten.mpr
  refine ⟨?_, ?_⟩
  · intro l hl
    obtain ⟨b, hb, rfl⟩ := List.mem_map.mp hl
    exact hw.1 b hb
  · rw [List.pairwise_map]
    apply List.pairwise_iff_getElem.mpr
    intro i j hi hj hij
    intro x hxi hxj
    obtain ⟨e, he, hex⟩ := List.mem_map.mp hxi
    obtain ⟨f, hf, hfx⟩ := List.mem_map.mp hxj
    have hpi := hw.2 i hi e (by rw [List.get_eq_getElem]; exact he)
    have hpj := hw.2 j hj f (by rw [List.get_eq_getElem]; exact hf)
    rw [hex] at hpi
    rw [hfx] at hpj
    have := Except.ok.inj (hpi.symm.trans hpj)
    omega

theorem removeKey_nodup {key : K} {b : Chain K V}
    (hnd : (b.map Prod.fst).Nodup) :
    ((removeKey key b).map Prod.fst).Nodup :=
  List.Nodup.sublist (List.Sublist.map Prod.fst (List.filter_sublist b)) hnd

theorem removeKey_append_key_nodup (key : K) (val : V) (b : Chain K V)
    (hnd : (b.map Prod.fst).Nodup) :
    ((removeKey key b ++ [(key, val)]).map Prod.fst).Nodup := by
  rw [List.map_append]
  apply List.Nodup.append (removeKey_nodup hnd) (by simp)
  intro x hx hx2
  obtain ⟨e, he, hex⟩ := List.mem_map.mp hx
  have : x = key := by simpa using hx2
  exact removeKey_no_key key b e he (hex.trans this)

theorem keysNodup_set_bucket (t : HashTable K V) (i : Nat) (b' : Chain K V)
    (hnd : KeysNodup t) (hb' : (b'.map Prod.fst).Nodup) :
    KeysNodup (⟨t.buckets.set i b'⟩ : HashTable K V) := by
  intro b hb
  rcases List.mem_or_eq_of_mem_set hb with h | h
  · exact hnd b h
  · exact h ▸ hb'

theorem placed_set_bucket (t : HashTable K V) (i : Nat) (b' : Chain K V)
    (hp : Placed hash t)
    (hb' : ∀ e ∈ b', t.bucketIndex hash e.1 = .ok i) :
    Placed hash (⟨t.buckets.set i b'⟩ : HashTable K V) := by
  intro j hj e he
  have hlen : (t.buckets.set i b').length = t.buckets.length :=
    List.length_set _ _ _
  have hcongr : ∀ y : K,
      bucketIndex hash (⟨t.buckets.set i b'⟩ : HashTable K V) y
        = t.bucketIndex hash y :=
    fun y => bucketIndex_congr _ _ _ (by simp)
  rw [hcongr]
  by_cases hji : j = i
  · subst hji
    have hget : (t.buckets.set j b').get ⟨j, hj⟩ = b' := by
      rw [List.get_eq_getElem]
      exact List.getElem_set_self hj
    exact hb' e (hget ▸ he)
  · have hjlen : j < t.buckets.length := hlen ▸ hj
    have hget : (t.buckets.set i b').get ⟨j, hj⟩ = t.buckets.get ⟨j, hjlen⟩ := by
      rw [List.get_eq_getElem, List.get_eq_getElem]
      exact List.getElem_set_ne (fun h => hji h.symm) _
    exact hp j hjlen e (hget ▸ he)

theorem wf_new (n : Int) : WF hash (new n : HashTable K V) := by
  constructor
  · intro b hb
    rw [List.eq_of_mem_replicate hb]
    simp
  · intro j hj e he
    have hempty : (new (K := K) (V := V) n).buckets.get ⟨j, hj⟩ = [] := by
      rw [List.get_eq_getElem]
      exact List.getElem_replicate _ _
    rw [hempty] at he
    cases he

end HashTable

/-! ## Preservation of the invariant and entry-count accounting -/

namespace HashTable

variable {K V : Type} [DecidableEq K] [DecidableEq V] {hash : K → Int}

theorem setResult_buckets_length (t : HashTable K V) (key : K) (val : V) :
    (t.setResult hash key val).buckets.length = t.buckets.length := by
  simp [setResult]

theorem delResult_buckets_length (t : HashTable K V) (key : K) :
    (t.delResult hash key).buckets.length = t.buckets.length := by
  simp [delResult]

theorem bucket_placed (t : HashTable K V) (key : K) (hp : Placed hash t)
    (hpos : 0 < t.buckets.length) :
    ∀ e ∈ t.buckets.getD (t.hidx hash key) [],
      t.bucketIndex hash e.1 = .ok (t.hidx hash key) := by
  intro e he
  rw [getD_eq_get _ _ (t.hidx_lt key hpos)] at he
  exact hp _ (t.hidx_lt key hpos) e he

theorem wf_setResult (t : HashTable K V) (key : K) (val : V)
    (hw : WF hash t) (hpos : 0 < t.buckets.length) :
    WF hash (t.setResult hash key val) := by
  show WF hash (⟨t.buckets.set (t.hidx hash key)
    (removeKey key (t.buckets.getD (t.hidx hash key) []) ++ [(key, val)])⟩ :
      HashTable K V)
  constructor
  · apply keysNodup_set_bucket _ _ _ hw.1
    exact removeKey_append_key_nodup key val _ (hw.1 _ (bucket_mem t key hpos))
  · apply placed_set_bucket _ _ _ hw.2
    intro e he
    rcases List.mem_append.mp he with h | h
    · exact bucket_placed t key hw.2 hpos e (List.mem_of_mem_filter h)
    · have he2 : e = (key, val) := by simpa using h
      subst he2
      rw [bucketIndex_of_pos t key hpos]
      rfl

theorem wf_delResult (t : HashTable K V) (key : K)
    (hw : WF hash t) (hpos : 0 < t.buckets.length) :
    WF hash (t.delResult hash key) := by
  show WF hash (⟨t.buckets.set (t.hidx hash key)
    (removeKey key (t.buckets.getD (t.hidx hash key) []))⟩ : HashTable K V)
  constructor
  · apply keysNodup_set_bucket _ _ _ hw.1
    exact removeKey_nodup (hw.1 _ (bucket_mem t key hpos))
  · apply placed_set_bucket _ _ _ hw.2
    intro e he
    exact bucket_placed t key hw.2 hpos e (List.mem_of_mem_filter he)

theorem sum_map_length_set {α : Type} (L : List (List α)) (i : Nat) (b' : List α)
    (h : i < L.length) :
    ((L.set i b').map List.length).sum + (L.get ⟨i, h⟩).length
      = (L.map List.length).sum + b'.length := by
  induction L generalizing i with
  | nil => simp at h
  | cons a L ih =>
    cases i with
    | zero =>
      have hget : (a :: L).get ⟨0, h⟩ = a := rfl
      rw [hget]
      simp only [List.set_cons_zero, List.map_cons, List.sum_cons]
      omega
    | succ i =>
      have h' : i < L.length := by simpa using h
      have hget : (a :: L).get ⟨i + 1, h⟩ = L.get ⟨i, h'⟩ := rfl
      rw [hget]
      simp only [List.set_cons_succ, List.map_cons, List.sum_cons]
      have := ih i h'
      omega

theorem length_set_bucket (t : HashTable K V) (i : Nat)
    (h : i < t.buckets.length) (b' : Chain K V) :
    (⟨t.buckets.set i b'⟩ : HashTable K V).length + (t.buckets.get ⟨i, h⟩).length
      = t.length + b'.length := by
  simp only [length_eq]
  exact sum_map_length_set _ _ _ h

theorem removeKey_length_of_mem (key : K) (b : Chain K V)
    (hnd : (b.map Prod.fst).Nodup) (hmem : ∃ e ∈ b, e.1 = key) :
    (removeKey key b).length + 1 = b.length := by
  obtain ⟨b₁, cv, b₂, hb, h₁⟩ := exists_first_key key b hmem
  have h₂ := no_key_right_of_nodup (hb ▸ hnd)
  rw [hb, removeKey_sep key cv b₁ b₂ h₁ h₂]
  simp only [List.length_append, List.length_cons]
  omega

theorem setResult_length_of_mem (t : HashTable K V) (key : K) (val : V)
    (hnd : KeysNodup t) (hpos : 0 < t.buckets.length)
    (hmem : ∃ e ∈ t.buckets.getD (t.hidx hash key) [], e.1 = key) :
    (t.setResult hash key val).length = t.length := by
  have hlt : t.hidx hash key < t.buckets.length := t.hidx_lt key hpos
  have hacc := length_set_bucket t (t.hidx hash key) hlt
    (removeKey key (t.buckets.getD (t.hidx hash key) []) ++ [(key, val)])
  rw [← getD_eq_get t.buckets ([] : Chain K V) hlt] at hacc
  have hrem := removeKey_length_of_mem key _ (hnd _ (bucket_mem t key hpos)) hmem
  have hres : (⟨t.buckets.set (t.hidx hash key)
      (removeKey key (t.buckets.getD (t.hidx hash key) []) ++ [(key, val)])⟩ :
      HashTable K V) = t.setResult hash key val := rfl
  rw [hres, List.length_append, List.length_cons, List.length_nil] at hacc
  omega

theorem setResult_length_of_not_mem (t : HashTable K V) (key : K) (val : V)
    (hpos : 0 < t.buckets.length)
    (habs : ∀ e ∈ t.buckets.getD (t.hidx hash key) [], ¬ e.1 = key) :
    (t.setResult hash key val).length = t.length + 1 := by
  have hlt : t.hidx hash key < t.buckets.length := t.hidx_lt key hpos
  have hacc := length_set_bucket t (t.hidx hash key) hlt
    (removeKey key (t.buckets.getD (t.hidx hash key) []) ++ [(key, val)])
  rw [← getD_eq_get t.buckets ([] : Chain K V) hlt] at hacc
  have hres : (⟨t.buckets.set (t.hidx hash key)
      (removeKey key (t.buckets.getD (t.hidx hash key) []) ++ [(key, val)])⟩ :
      HashTable K V) = t.setResult hash key val := rfl
  rw [hres, List.length_append, List.length_cons, List.length_nil] at hacc
  rw [removeKey_eq_self habs] at hacc
  omega

theorem delResult_length_of_mem (t : HashTable K V) (key : K)
    (hnd : KeysNodup t) (hpos : 0 < t.buckets.length)
    (hmem : ∃ e ∈ t.buckets.getD (t.hidx hash key) [], e.1 = key) :
    (t.delResult hash key).length + 1 = t.length := by
  have hlt : t.hidx hash key < t.buckets.length := t.hidx_lt key hpos
  have hacc := length_set_bucket t (t.hidx hash key) hlt
    (removeKey key (t.buckets.getD (t.hidx hash key) []))
  rw [← getD_eq_get t.buckets ([] : Chain K V) hlt] at hacc
  have hrem := removeKey_length_of_mem key _ (hnd _ (bucket_mem t key hpos)) hmem
  have hres : (⟨t.buckets.set (t.hidx hash key)
      (removeKey key (t.buckets.getD (t.hidx hash key) []))⟩ :
      HashTable K V) = t.delResult hash key := rfl
  rw [hres] at hacc
  omega

theorem wf_of_reachable {t : HashTable K V} (h : Reachable hash t) :
    WF hash t := by
  induction h with
  | new n => exact wf_new n
  | step_set hr hstep ih =>
    rename_i t t' k v
    by_cases hpos : 0 < t.buckets.length
    · rw [set_eq_of_nodup t k v ih.1 hpos] at hstep
      have ht' : t' = t.setResult hash k v := (Prod.mk.injEq _ _ _ _ ▸ hstep).1.symm
      exact ht' ▸ wf_setResult t k v ih hpos
    · have h0 : t.buckets.length = 0 := by omega
      rw [set, bucketIndex_zero t k h0] at hstep
      simp at hstep
  | step_del hr hstep ih =>
    rename_i t t' k
    by_cases hpos : 0 < t.buckets.length
    · by_cases hmem : ∃ e ∈ t.buckets.getD (t.hidx hash k) [], e.1 = k
      · rw [delete_eq_of_mem t k ih.1 hpos hmem] at hstep
        have ht' : t' = t.delResult hash k := (Prod.mk.injEq _ _ _ _ ▸ hstep).1.symm
        exact ht' ▸ wf_delResult t k ih hpos
      · push_neg at hmem
        rw [delete_eq_of_not_mem t k hpos hmem] at hstep
        simp at hstep
    · have h0 : t.buckets.length = 0 := by omega
      rw [delete, bucketIndex_zero t k h0] at hstep
      simp at hstep

end HashTable

/-! ## The modified bucket after `set` / `delete` -/

namespace HashTable

variable {K V : Type} [DecidableEq K] [DecidableEq V] {hash : K → Int}

theorem hidx_setResult (t : HashTable K V) (key : K) (val : V) (x : K) :
    (t.setResult hash key val).hidx hash x = t.hidx hash x := by
  simp [hidx, setResult_buckets_length]

theorem hidx_delResult (t : HashTable K V) (key : K) (x : K) :
    (t.delResult hash key).hidx hash x = t.hidx hash x := by
  simp [hidx, delResult_buckets_length]

theorem get_bucket_setResult (t : HashTable K V) (key : K) (val : V)
    (hpos : 0 < t.buckets.length) :
    (t.setResult hash key val).buckets.getD ((t.setResult hash key val).hidx hash key) []
      = removeKey key (t.buckets.getD (t.hidx hash key) []) ++ [(key, val)] := by
  rw [hidx_setResult]
  have hlt : t.hidx hash key < (t.setResult hash key val).buckets.length := by
    rw [setResult_buckets_length]
    exact t.hidx_lt key hpos
  rw [getD_eq_get _ _ hlt, List.get_eq_getElem]
  exact List.getElem_set_self _

theorem get_bucket_delResult (t : HashTable K V) (key : K)
    (hpos : 0 < t.buckets.length) :
    (t.delResult hash key).buckets.getD ((t.delResult hash key).hidx hash key) []
      = removeKey key (t.buckets.getD (t.hidx hash key) []) := by
  rw [hidx_delResult]
  have hlt : t.hidx hash key < (t.delResult hash key).buckets.length := by
    rw [delResult_buckets_length]
    exact t.hidx_lt key hpos
  rw [getD_eq_get _ _ hlt, List.get_eq_getElem]
  exact List.getElem_set_self _

theorem get_setResult (t : HashTable K V) (key : K) (val : V)
    (hpos : 0 < t.buckets.length) :
    (t.setResult hash key val).get hash key = .ok val := by
  have hpos2 : 0 < (t.setResult hash key val).buckets.length := by
    rw [setResult_buckets_length]
    exact hpos
  rw [get_eq_find _ key hpos2, get_bucket_setResult t key val hpos]
  have hnone : (removeKey key (t.buckets.getD (t.hidx hash key) [])).find?
      (fun e => decide (e.1 = key)) = none :=
    List.find?_eq_none.mpr (fun x hx => by simpa using removeKey_no_key key _ x hx)
  rw [List.find?_append, hnone]
  simp [List.find?]

theorem contains_setResult (t : HashTable K V) (key : K) (val : V)
    (hpos : 0 < t.buckets.length) :
    (t.setResult hash key val).contains hash key = .ok true := by
  have hpos2 : 0 < (t.setResult hash key val).buckets.length := by
    rw [setResult_buckets_length]
    exact hpos
  rw [contains_eq_any _ key hpos2, get_bucket_setResult t key val hpos]
  simp

theorem mem_keys_setResult (t : HashTable K V) (key : K) (val : V)
    (hpos : 0 < t.buckets.length) (x : K) :
    x ∈ (t.setResult hash key val).keys ↔ x = key ∨ x ∈ t.keys := by
  have hlen : (t.setResult hash key val).buckets.length = t.buckets.length :=
    setResult_buckets_length t key val
  constructor
  · intro hx
    obtain ⟨b, hb, e, he, hex⟩ := (mem_keys_iff _ x).mp hx
    rcases List.mem_or_eq_of_mem_set hb with h | h
    · exact Or.inr ((mem_keys_iff t x).mpr ⟨b, h, e, he, hex⟩)
    · subst h
      rcases List.mem_append.mp he with h2 | h2
      · exact Or.inr ((mem_keys_iff t x).mpr
          ⟨_, bucket_mem t key hpos, e, List.mem_of_mem_filter h2, hex⟩)
      · have he2 : e = (key, val) := by simpa using h2
        exact Or.inl (by rw [← hex, he2])
  · intro hx
    by_cases hxk : x = key
    · subst hxk
      have hpos2 : 0 < (t.setResult hash x val).buckets.length := by
        rw [hlen]
        exact hpos
      have hmem : (t.setResult hash x val).buckets.getD
          ((t.setResult hash x val).hidx hash x) []
            ∈ (t.setResult hash x val).buckets :=
        bucket_mem (t.setResult hash x val) x hpos2
      rw [get_bucket_setResult t x val hpos] at hmem
      exact (mem_keys_iff _ x).mpr
        ⟨_, hmem, (x, val), List.mem_append_right _ (List.mem_singleton_self _), rfl⟩
    · rcases hx with rfl | hx
      · exact absurd rfl hxk
      · obtain ⟨j, hj, e, he, hex⟩ := (mem_keys_iff_get t x).mp hx
        have hj2 : j < (t.setResult hash key val).buckets.length := by
          rw [hlen]
          exact hj
        apply (mem_keys_iff_get _ x).mpr
        refine ⟨j, hj2, e, ?_, hex⟩
        by_cases hji : j = t.hidx hash key
        · subst hji
          have hget : (t.setResult hash key val).buckets.get ⟨t.hidx hash key, hj2⟩
              = removeKey key (t.buckets.getD (t.hidx hash key) []) ++ [(key, val)] := by
            rw [List.get_eq_getElem]
            exact List.getElem_set_self _
          rw [hget]
          apply List.mem_append_left
          apply List.mem_filter.mpr
          refine ⟨?_, by simpa using fun h => hxk (hex ▸ h)⟩
          rw [getD_eq_get _ _ (t.hidx_lt key hpos)]
          exact he
        · have hget : (t.setResult hash key val).buckets.get ⟨j, hj2⟩
              = t.buckets.get ⟨j, hj⟩ := by
            rw [List.get_eq_getElem, List.get_eq_getElem]
            exact List.getElem_set_ne (fun h => hji h.symm) _
          rw [hget]
          exact he

theorem mem_keys_delResult (t : HashTable K V) (key : K)
    (hw : WF hash t) (hpos : 0 < t.buckets.length) (x : K) :
    x ∈ (t.delResult hash key).keys ↔ x ∈ t.keys ∧ ¬ x = key := by
  have hlen : (t.delResult hash key).buckets.length = t.buckets.length :=
    delResult_buckets_length t key
  constructor
  · intro hx
    obtain ⟨j, hj2, e, he, hex⟩ := (mem_keys_iff_get _ x).mp hx
    have hj : j < t.buckets.length := by
      rw [← hlen]
      exact hj2
    by_cases hji : j = t.hidx hash key
    · subst hji
      have hget : (t.delResult hash key).buckets.get ⟨t.hidx hash key, hj2⟩
          = removeKey key (t.buckets.getD (t.hidx hash key) []) := by
        rw [List.get_eq_getElem]
        exact List.getElem_set_self _
      rw [hget] at he
      refine ⟨(mem_keys_iff t x).mpr
        ⟨_, bucket_mem t key hpos, e, List.mem_of_mem_filter he, hex⟩, ?_⟩
      intro hxk
      exact removeKey_no_key key _ e he (hex.trans hxk)
    · have hget : (t.delResult hash key).buckets.get ⟨j, hj2⟩
          = t.buckets.get ⟨j, hj⟩ := by
        rw [List.get_eq_getElem, List.get_eq_getElem]
        exact List.getElem_set_ne (fun h => hji h.symm) _
      rw [hget] at he
      refine ⟨(mem_keys_iff_get t x).mpr ⟨j, hj, e, he, hex⟩, ?_⟩
      intro hxk
      have hpl := hw.2 j hj e he
      rw [hex, hxk, bucketIndex_of_pos t key hpos] at hpl
      exact hji (Except.ok.inj hpl).symm
  · rintro ⟨hx, hxk⟩
    obtain ⟨j, hj, e, he, hex⟩ := (mem_keys_iff_get t x).mp hx
    have hj2 : j < (t.delResult hash key).buckets.length := by
      rw [hlen]
      exact hj
    apply (mem_keys_iff_get _ x).mpr
    refine ⟨j, hj2, e, ?_, hex⟩
    by_cases hji : j = t.hidx hash key
    · subst hji
      have hget : (t.delResult hash key).buckets.get ⟨t.hidx hash key, hj2⟩
          = removeKey key (t.buckets.getD (t.hidx hash key) []) := by
        rw [List.get_eq_getElem]
        exact List.getElem_set_self _
      rw [hget]
      apply List.mem_filter.mpr
      refine ⟨?_, by simpa using fun h => hxk (hex ▸ h)⟩
      rw [getD_eq_get _ _ (t.hidx_lt key hpos)]
      exact he
    · have hget : (t.delResult hash key).buckets.get ⟨j, hj2⟩
          = t.buckets.get ⟨j, hj⟩ := by
        rw [List.get_eq_getElem, List.get_eq_getElem]
        exact List.getElem_set_ne (fun h => hji h.symm) _
      rw [hget]
      exact he

end HashTable

/-! ## Iterated operations and the impossibility of chain-level failure -/

namespace HashTable

variable {K V : Type} [DecidableEq K] [DecidableEq V] {hash : K → Int}

theorem setMany_spec (t : HashTable K V) (ps : List (K × V))
    (hw : WF hash t) (hpos : 0 < t.buckets.length)
    (hnew : ∀ p ∈ ps, p.1 ∉ t.keys) (hnd : (ps.map Prod.fst).Nodup) :
    WF hash (t.setMany hash ps)
      ∧ (t.setMany hash ps).buckets.length = t.buckets.length
      ∧ (t.setMany hash ps).length = t.length + ps.length
      ∧ ∀ x, x ∈ (t.setMany hash ps).keys ↔ x ∈ t.keys ∨ x ∈ ps.map Prod.fst := by
  induction ps generalizing t with
  | nil =>
    refine ⟨hw, rfl, by simp [setMany], fun x => by simp [setMany]⟩
  | cons p ps ih =>
    obtain ⟨k, v⟩ := p
    have hstep : t.set hash k v = (t.setResult hash k v, .ok ()) :=
      set_eq_of_nodup t k v hw.1 hpos
    have hk_not : k ∉ t.keys := hnew (k, v) (List.mem_cons_self _ _)
    have habs : ∀ e ∈ t.buckets.getD (t.hidx hash k) [], ¬ e.1 = k := by
      intro e he hek
      exact hk_not (mem_keys_of_mem_bucket t k hpos he hek)
    have hwf1 := wf_setResult t k v hw hpos
    have hlen1 : (t.setResult hash k v).buckets.length = t.buckets.length :=
      setResult_buckets_length t k v
    have hpos1 : 0 < (t.setResult hash k v).buckets.length := by
      rw [hlen1]
      exact hpos
    have hcount1 : (t.setResult hash k v).length = t.length + 1 :=
      setResult_length_of_not_mem t k v hpos habs
    have hkeys1 : ∀ x, x ∈ (t.setResult hash k v).keys ↔ x = k ∨ x ∈ t.keys :=
      mem_keys_setResult t k v hpos
    have hndc : k ∉ ps.map Prod.fst ∧ (ps.map Prod.fst).Nodup := by
      constructor
      · exact (List.nodup_cons.mp (by simpa using hnd)).1
      · exact (List.nodup_cons.mp (by simpa using hnd)).2
    have hnew1 : ∀ q ∈ ps, q.1 ∉ (t.setResult hash k v).keys := by
      intro q hq hqk
      rcases (hkeys1 q.1).mp hqk with h | h
      · exact hndc.1 (h ▸ List.mem_map.mpr ⟨q, hq, rfl⟩)
      · exact hnew q (List.mem_cons_of_mem _ hq) h
    have hunfold : t.setMany hash ((k, v) :: ps)
        = (t.setResult hash k v).setMany hash ps := by
      simp [setMany, hstep]
    obtain ⟨ihwf, ihlen, ihcount, ihkeys⟩ :=
      ih (t.setResult hash k v) hwf1 hpos1 hnew1 hndc.2
    rw [hunfold]
    refine ⟨ihwf, by rw [ihlen, hlen1], ?_, ?_⟩
    · rw [ihcount, hcount1]
      simp only [List.length_cons]
      omega
    · intro x
      rw [ihkeys x, hkeys1 x]
      simp only [List.map_cons, List.mem_cons]
      tauto

theorem deleteMany_spec (t : HashTable K V) (ks : List K)
    (hw : WF hash t) (hpos : 0 < t.buckets.length)
    (hin : ∀ k ∈ ks, k ∈ t.keys) (hnd : ks.Nodup) :
    WF hash (t.deleteMany hash ks)
      ∧ (t.deleteMany hash ks).buckets.length = t.buckets.length
      ∧ (t.deleteMany hash ks).length + ks.length = t.length
      ∧ ∀ x, x ∈ (t.deleteMany hash ks).keys ↔ x ∈ t.keys ∧ x ∉ ks := by
  induction ks generalizing t with
  | nil =>
    refine ⟨hw, rfl, by simp [deleteMany], fun x => by simp [deleteMany]⟩
  | cons k ks ih =>
    have hk : k ∈ t.keys := hin k (List.mem_cons_self _ _)
    have hmem := mem_bucket_of_mem_keys t k hw.2 hpos hk
    have hstep : t.delete hash k = (t.delResult hash k, .ok ()) :=
      delete_eq_of_mem t k hw.1 hpos hmem
    have hwf1 := wf_delResult t k hw hpos
    have hlen1 : (t.delResult hash k).buckets.length = t.buckets.length :=
      delResult_buckets_length t k
    have hpos1 : 0 < (t.delResult hash k).buckets.length := by
      rw [hlen1]
      exact hpos
    have hcount1 : (t.delResult hash k).length + 1 = t.length :=
      delResult_length_of_mem t k hw.1 hpos hmem
    have hkeys1 := mem_keys_delResult t k hw hpos
    have hndc := List.nodup_cons.mp hnd
    have hin1 : ∀ x ∈ ks, x ∈ (t.delResult hash k).keys := by
      intro x hx
      apply (hkeys1 x).mpr
      refine ⟨hin x (List.mem_cons_of_mem _ hx), ?_⟩
      intro hxk
      exact hndc.1 (hxk ▸ hx)
    have hunfold : t.deleteMany hash (k :: ks)
        = (t.delResult hash k).deleteMany hash ks := by
      simp [deleteMany, hstep]
    obtain ⟨ihwf, ihlen, ihcount, ihkeys⟩ := ih _ hwf1 hpos1 hin1 hndc.2
    rw [hunfold]
    refine ⟨ihwf, by rw [ihlen, hlen1], ?_, ?_⟩
    · simp only [List.length_cons]
      omega
    · intro x
      rw [ihkeys x, hkeys1 x]
      simp only [List.mem_cons]
      constructor
      · rintro ⟨⟨h1, h2⟩, h3⟩
        exact ⟨h1, fun h => h.elim h2 h3⟩
      · rintro ⟨h1, h2⟩
        exact ⟨⟨h1, fun h => h2 (Or.inl h)⟩, fun h => h2 (Or.inr h)⟩

theorem runDels_ok (key : K) (s chain : List (K × V))
    (hcnt : ∀ e : K × V, s.count e ≤ chain.count e) :
    (runDels key s chain).2 = .ok () := by
  induction s generalizing chain with
  | nil => rfl
  | cons x rest ih =>
    obtain ⟨ck, cv⟩ := x
    by_cases hck : ck = key
    · have hmem : (ck, cv) ∈ chain := by
        apply List.count_pos_iff.mp
        have h1 : 0 < (((ck, cv) :: rest).count (ck, cv)) := by
          rw [List.count_cons_self]
          omega
        exact Nat.lt_of_lt_of_le h1 (hcnt (ck, cv))
      simp only [runDels, if_pos hck, chainDelete_eq_erase _ _ hmem]
      apply ih
      intro e
      by_cases he : e = (ck, cv)
      · subst he
        rw [List.count_erase_self]
        have h2 := hcnt (ck, cv)
        rw [List.count_cons_self] at h2
        omega
      · rw [List.count_erase_of_ne he]
        have h2 := hcnt e
        rw [List.count_cons_of_ne he] at h2
        exact h2
    · simp only [runDels, if_neg hck]
      apply ih
      intro e
      exact Nat.le_trans (List.count_le_count_cons e (ck, cv) rest) (hcnt e)

theorem delete_no_valueNotFound (t : HashTable K V) (key : K) :
    (t.delete hash key).2 ≠ .error .valueNotFound := by
  by_cases h0 : t.buckets.length = 0
  · rw [delete, bucketIndex_zero t key h0]
    simp
  · have hpos : 0 < t.buckets.length := Nat.pos_of_ne_zero h0
    have hhidx : ((hash key) % (t.buckets.length : Int)).toNat = t.hidx hash key := rfl
    rw [delete, bucketIndex_of_pos t key hpos, contains_eq_any t key hpos]
    cases hany : (t.buckets.getD (t.hidx hash key) []).any (fun e => decide (e.1 = key)) with
    | false => simp
    | true =>
      have hok := runDels_ok key (t.buckets.getD (t.hidx hash key) [])
        (t.buckets.getD (t.hidx hash key) []) (fun e => Nat.le_refl _)
      simp only [hhidx, hok]
      simp

end HashTable

/-! ## The claims -/

/-- Claim C1: for every key and value, after a successful `set(key, val)` on a
well-formed hash table with a positive bucket count, `get(key)` returns `val`
and `contains(key)` returns true. -/
theorem C1_set_then_get_and_contains {K V : Type} [DecidableEq K] [DecidableEq V]
    (hash : K → Int) (t t' : HashTable K V) (key : K) (val : V)
    (hw : WF hash t) (hpos : 0 < t.buckets.length)
    (hset : t.set hash key val = (t', .ok ())) :
    t'.get hash key = .ok val ∧ t'.contains hash key = .ok true := by
  rw [HashTable.set_eq_of_nodup t key val hw.1 hpos] at hset
  have ht' : t' = t.setResult hash key val :=
    ((Prod.mk.injEq _ _ _ _).mp hset).1.symm
  subst ht'
  exact ⟨HashTable.get_setResult t key val hpos,
    HashTable.contains_setResult t key val hpos⟩

/-- Concrete instance of C1: `set(3, 7)` on a fresh 8-bucket table, then
`get(3)` and `contains(3)`. -/
theorem C1_witness :
    (HashTable.mk [[], [], [], [(3, 7)], [], [], [], []] : HashTable Nat Nat).get
        natHash 3 = .ok 7
      ∧ (HashTable.mk [[], [], [], [(3, 7)], [], [], [], []] : HashTable Nat Nat).contains
        natHash 3 = .ok true :=
  C1_set_then_get_and_contains natHash (HashTable.new 8) _ 3 7
    (HashTable.wf_new 8) (by decide) rfl

/-- Claim C2: every reachable hash-table state (any sequence of successful
`set` / `delete` calls starting from a fresh construction) holds at most one
entry per distinct key across all chains combined: the keys of `items()` are
pairwise distinct. -/
theorem C2_reachable_at_most_one_entry_per_key {K V : Type} [DecidableEq K]
    [DecidableEq V] (hash : K → Int) (t : HashTable K V)
    (hr : Reachable hash t) :
    (t.items.map Prod.fst).Nodup := by
  rw [← HashTable.keys_eq]
  exact HashTable.keys_nodup_of_wf t (HashTable.wf_of_reachable hr)

/-- Concrete instance of C2: the table reached by `new(8)` then `set(3, 7)`. -/
theorem C2_witness :
    ((HashTable.mk [[], [], [], [(3, 7)], [], [], [], []] : HashTable Nat Nat).items.map
      Prod.fst).Nodup :=
  C2_reachable_at_most_one_entry_per_key natHash _
    (Reachable.step_set (k := 3) (v := 7) (Reachable.new 8) rfl)

/-- Claim C3: after `set(key, v1)` then `set(key, v2)`, `get(key)` returns
`v2`, and `length()` is unchanged by the second `set` call. -/
theorem C3_overwrite_get_and_length {K V : Type} [DecidableEq K] [DecidableEq V]
    (hash : K → Int) (t t1 t2 : HashTable K V) (key : K) (v1 v2 : V)
    (hw : WF hash t) (hpos : 0 < t.buckets.length)
    (h1 : t.set hash key v1 = (t1, .ok ()))
    (h2 : t1.set hash key v2 = (t2, .ok ())) :
    t2.get hash key = .ok v2 ∧ t2.length = t1.length := by
  rw [HashTable.set_eq_of_nodup t key v1 hw.1 hpos] at h1
  have ht1 : t1 = t.setResult hash key v1 := ((Prod.mk.injEq _ _ _ _).mp h1).1.symm
  subst ht1
  have hw1 := HashTable.wf_setResult t key v1 hw hpos
  have hpos1 : 0 < (t.setResult hash key v1).buckets.length := by
    rw [HashTable.setResult_buckets_length]
    exact hpos
  rw [HashTable.set_eq_of_nodup _ key v2 hw1.1 hpos1] at h2
  have ht2 : t2 = (t.setResult hash key v1).setResult hash key v2 :=
    ((Prod.mk.injEq _ _ _ _).mp h2).1.symm
  subst ht2
  refine ⟨HashTable.get_setResult _ key v2 hpos1, ?_⟩
  have hmem : ∃ e ∈ (t.setResult hash key v1).buckets.getD
      ((t.setResult hash key v1).hidx hash key) [], e.1 = key := by
    rw [HashTable.get_bucket_setResult t key v1 hpos]
    exact ⟨(key, v1), List.mem_append_right _ (List.mem_singleton_self _), rfl⟩
  exact HashTable.setResult_length_of_mem _ key v2 hw1.1 hpos1 hmem

/-- Concrete instance of C3: `set(3, 7)` then `set(3, 9)` on a fresh 8-bucket
table. -/
theorem C3_witness :
    (HashTable.mk [[], [], [], [(3, 9)], [], [], [], []] : HashTable Nat Nat).get
        natHash 3 = .ok 9
      ∧ (HashTable.mk [[], [], [], [(3, 9)], [], [], [], []] : HashTable Nat Nat).length
        = (HashTable.mk [[], [], [], [(3, 7)], [], [], [], []] : HashTable Nat Nat).length :=
  C3_overwrite_get_and_length natHash (HashTable.new 8) _ _ 3 7 9
    (HashTable.wf_new 8) (by decide) rfl rfl

/-- Claim C4: `delete(key)` on a key absent from a table with a positive bucket
count fails with `KeyError` and performs no mutation: the returned state is the
table exactly as it was. -/
theorem C4_delete_absent_key {K V : Type} [DecidableEq K] [DecidableEq V]
    (hash : K → Int) (t : HashTable K V) (key : K)
    (hpos : 0 < t.buckets.length) (habs : key ∉ t.keys) :
    t.delete hash key = (t, .error .keyNotFound) := by
  apply HashTable.delete_eq_of_not_mem t key hpos
  intro e he hek
  exact habs (HashTable.mem_keys_of_mem_bucket t key hpos he hek)

/-- Concrete instance of C4: `delete(5)` on a fresh 8-bucket table. -/
theorem C4_witness :
    (HashTable.new 8 : HashTable Nat Nat).delete natHash 5
      = (HashTable.new 8, .error .keyNotFound) :=
  C4_delete_absent_key natHash (HashTable.new 8) 5 (by decide) (by decide)

/-- Claim C5 counterexample: `__init__` neither fails nor is guarded when
`init_size ≤ 0`; `new(0)` and `new(-1)` succeed and return a table with zero
chains (Python's `range(n)` is empty for `n ≤ 0`). -/
theorem C5_counterexample :
    (HashTable.new 0 : HashTable Nat Nat) = HashTable.mk []
      ∧ (HashTable.new (-1) : HashTable Nat Nat) = HashTable.mk [] :=
  ⟨rfl, rfl⟩

/-- Claim C5 as amended: `new(init_size)` always succeeds, allocating
`max(init_size, 0)` empty chains; in particular for `init_size > 0` it
allocates exactly `init_size` empty chains, while for `init_size ≤ 0` it
yields a table with zero chains (on which every key-based operation then
fails with `ZeroDivisionError`, see C10). -/
theorem C5_new_allocates {K V : Type} (n : Int) :
    (HashTable.new n : HashTable K V).buckets = List.replicate n.toNat [] :=
  rfl

/-- Claim C6: for every key absent from a table with a positive bucket count
(never set, or deleted and not re-set), `contains` returns false and `get`
fails with `KeyError`. -/
theorem C6_contains_get_absent {K V : Type} [DecidableEq K] [DecidableEq V]
    (hash : K → Int) (t : HashTable K V) (key : K)
    (hpos : 0 < t.buckets.length) (habs : key ∉ t.keys) :
    t.contains hash key = .ok false ∧ t.get hash key = .error .keyNotFound := by
  have hb : ∀ e ∈ t.buckets.getD (t.hidx hash key) [], ¬ e.1 = key :=
    fun e he hek => habs (HashTable.mem_keys_of_mem_bucket t key hpos he hek)
  constructor
  · rw [HashTable.contains_eq_any t key hpos]
    have hany : (t.buckets.getD (t.hidx hash key) []).any
        (fun e => decide (e.1 = key)) = false :=
      List.any_eq_false.mpr (fun x hx => by simpa using hb x hx)
    rw [hany]
  · rw [HashTable.get_eq_find t key hpos]
    have hfind : (t.buckets.getD (t.hidx hash key) []).find?
        (fun e => decide (e.1 = key)) = none :=
      List.find?_eq_none.mpr (fun x hx => by simpa using hb x hx)
    rw [hfind]

/-- Concrete instance of C6: key 5 on a fresh 8-bucket table. -/
theorem C6_witness :
    (HashTable.new 8 : HashTable Nat Nat).contains natHash 5 = .ok false
      ∧ (HashTable.new 8 : HashTable Nat Nat).get natHash 5
        = .error .keyNotFound :=
  C6_contains_get_absent natHash (HashTable.new 8) 5 (by decide) (by decide)

/-- Claim C7: starting from a fresh table with a positive bucket count, after
`set` calls with pairwise-distinct keys `length()` equals the number of calls
N, and after subsequently deleting M of those keys it equals N - M. -/
theorem C7_length_after_sets_and_deletes {K V : Type} [DecidableEq K]
    [DecidableEq V] (hash : K → Int) (n : Int) (hn : 0 < n)
    (ps : List (K × V)) (hnd : (ps.map Prod.fst).Nodup)
    (ks : List K) (hknd : ks.Nodup) (hsub : ∀ k ∈ ks, k ∈ ps.map Prod.fst) :
    ((HashTable.new n : HashTable K V).setMany hash ps).length = ps.length
      ∧ (((HashTable.new n : HashTable K V).setMany hash ps).deleteMany
          hash ks).length = ps.length - ks.length := by
  have hpos : 0 < (HashTable.new n : HashTable K V).buckets.length := by
    show 0 < (List.replicate n.toNat ([] : Chain K V)).length
    rw [List.length_replicate]
    omega
  have hkeys0 : ∀ x : K, x ∉ (HashTable.new n : HashTable K V).keys := by
    intro x hx
    obtain ⟨b, hb, e, he, _⟩ := (HashTable.mem_keys_iff _ x).mp hx
    have hbe : b = [] := List.eq_of_mem_replicate hb
    rw [hbe] at he
    cases he
  have hlen0 : (HashTable.new n : HashTable K V).length = 0 := by
    rw [HashTable.length_eq]
    show ((List.replicate n.toNat ([] : Chain K V)).map List.length).sum = 0
    rw [List.map_replicate]
    simp
  obtain ⟨hwfS, hlenS, hcountS, hkeysS⟩ :=
    HashTable.setMany_spec (HashTable.new n) ps (HashTable.wf_new n) hpos
      (fun p _ => hkeys0 p.1) hnd
  have hposS : 0 < ((HashTable.new n : HashTable K V).setMany hash ps).buckets.length := by
    rw [hlenS]
    exact hpos
  have hinS : ∀ k ∈ ks, k ∈ ((HashTable.new n : HashTable K V).setMany hash ps).keys :=
    fun k hk => (hkeysS k).mpr (Or.inr (hsub k hk))
  obtain ⟨_, _, hcountD, _⟩ :=
    HashTable.deleteMany_spec _ ks hwfS hposS hinS hknd
  constructor
  · omega
  · omega

/-- Concrete instance of C7: three distinct-key sets, then two deletes. -/
theorem C7_witness :
    ((HashTable.new 8 : HashTable Nat Nat).setMany natHash
        [(1, 10), (2, 20), (3, 30)]).length = 3
      ∧ (((HashTable.new 8 : HashTable Nat Nat).setMany natHash
          [(1, 10), (2, 20), (3, 30)]).deleteMany natHash [1, 2]).length = 3 - 2 :=
  C7_length_after_sets_and_deletes natHash 8 (by decide)
    [(1, 10), (2, 20), (3, 30)] (by decide) [1, 2] (by decide) (by decide)

/-- Claim C8: on a well-formed table, `set(key, val)` rewrites the target
bucket to `removeKey key bucket ++ [(key, val)]`: when the key is present the
unique existing `(key, old)` entry is removed from its chain position and the
updated entry ends up as the last entry of the chain; when the key is absent
`(key, val)` is appended directly, and the call succeeds either way. -/
theorem C8_set_moves_entry_to_tail {K V : Type} [DecidableEq K] [DecidableEq V]
    (hash : K → Int) (t : HashTable K V) (key : K) (val : V)
    (hw : WF hash t) (hpos : 0 < t.buckets.length) :
    (key ∈ t.keys →
        ∃ b₁ old b₂,
          t.buckets.getD (t.hidx hash key) [] = b₁ ++ (key, old) :: b₂
            ∧ (∀ x ∈ b₁, ¬ x.1 = key) ∧ (∀ x ∈ b₂, ¬ x.1 = key)
            ∧ ((t.set hash key val).1).buckets.getD (t.hidx hash key) []
              = (b₁ ++ b₂) ++ [(key, val)])
      ∧ (key ∉ t.keys →
          ((t.set hash key val).1).buckets.getD (t.hidx hash key) []
            = t.buckets.getD (t.hidx hash key) [] ++ [(key, val)])
      ∧ (t.set hash key val).2 = .ok () := by
  have hset : t.set hash key val = (t.setResult hash key val, .ok ()) :=
    HashTable.set_eq_of_nodup t key val hw.1 hpos
  have hbucket : ((t.set hash key val).1).buckets.getD (t.hidx hash key) []
      = removeKey key (t.buckets.getD (t.hidx hash key) []) ++ [(key, val)] := by
    rw [hset]
    have hgb : (t.setResult hash key val).buckets.getD
        ((t.setResult hash key val).hidx hash key) []
          = removeKey key (t.buckets.getD (t.hidx hash key) []) ++ [(key, val)] :=
      HashTable.get_bucket_setResult t key val hpos
    rw [HashTable.hidx_setResult] at hgb
    exact hgb
  refine ⟨?_, ?_, by rw [hset]⟩
  · intro hk
    have hmem := HashTable.mem_bucket_of_mem_keys t key hw.2 hpos hk
    obtain ⟨b₁, old, b₂, hb, h₁⟩ := exists_first_key key _ hmem
    have hbmem : t.buckets.getD (t.hidx hash key) [] ∈ t.buckets :=
      HashTable.bucket_mem t key hpos
    have hbnd := hw.1 _ hbmem
    have h₂ := no_key_right_of_nodup (hb ▸ hbnd)
    refine ⟨b₁, old, b₂, hb, h₁, h₂, ?_⟩
    rw [hbucket, hb, removeKey_sep key old b₁ b₂ h₁ h₂]
  · intro hk
    have habs : ∀ e ∈ t.buckets.getD (t.hidx hash key) [], ¬ e.1 = key :=
      fun e he hek => hk (HashTable.mem_keys_of_mem_bucket t key hpos he hek)
    rw [hbucket, removeKey_eq_self habs]

/-- Concrete instance of C8: overwriting `set(3, 9)` on a table whose bucket 3
holds `(3, 7)` yields the bucket `[(3, 9)]`. -/
theorem C8_witness :
    ∃ b₁ old b₂,
      (HashTable.mk [[], [], [], [(3, 7)], [], [], [], []] : HashTable Nat Nat).buckets.getD
          ((HashTable.mk [[], [], [], [(3, 7)], [], [], [], []] : HashTable Nat Nat).hidx
            natHash 3) []
        = b₁ ++ (3, old) :: b₂
        ∧ (∀ x ∈ b₁, ¬ x.1 = 3) ∧ (∀ x ∈ b₂, ¬ x.1 = 3)
        ∧ (((HashTable.mk [[], [], [], [(3, 7)], [], [], [], []] :
              HashTable Nat Nat).set natHash 3 9).1).buckets.getD
            ((HashTable.mk [[], [], [], [(3, 7)], [], [], [], []] : HashTable Nat Nat).hidx
              natHash 3) []
          = (b₁ ++ b₂) ++ [(3, 9)] := by
  have hwf : WF natHash
      (HashTable.mk [[], [], [], [(3, 7)], [], [], [], []] : HashTable Nat Nat) := by
    have h : (HashTable.new 8 : HashTable Nat Nat).setResult natHash 3 7
        = HashTable.mk [[], [], [], [(3, 7)], [], [], [], []] := rfl
    exact h ▸ HashTable.wf_setResult (HashTable.new 8) 3 7
      (HashTable.wf_new 8) (by decide)
  exact (C8_set_moves_entry_to_tail natHash _ 3 9 hwf (by decide)).1 (by decide)

/-- Claim C9: the chain-level delete's not-found branch is unreachable from
`HashTable.delete`: on any table and key, the outcome is success, `KeyError`,
or `ZeroDivisionError`, never the chain-internal `ValueNotFound` (chain delete
is only invoked after `contains` confirmed a matching entry, so each exact
pair passed to it is present in the chain). -/
theorem C9_valueNotFound_unreachable {K V : Type} [DecidableEq K] [DecidableEq V]
    (hash : K → Int) (t : HashTable K V) (key : K) :
    (t.delete hash key).2 = .ok ()
      ∨ (t.delete hash key).2 = .error .keyNotFound
      ∨ (t.delete hash key).2 = .error .zeroDivision := by
  have h : (t.delete hash key).2 ≠ .error .valueNotFound :=
    HashTable.delete_no_valueNotFound t key
  cases hd : (t.delete hash key).2 with
  | ok u =>
    cases u
    exact Or.inl rfl
  | error e =>
    cases e with
    | keyNotFound => exact Or.inr (Or.inl rfl)
    | valueNotFound => exact absurd hd h
    | zeroDivision => exact Or.inr (Or.inr rfl)

/-- Claim C10: constructing with `init_size ≤ 0` succeeds and yields a table
with zero buckets, and every key-based operation on such a table fails with
`ZeroDivisionError` because `_bucket_index` computes `hash(key) % 0` (the
mutating operations leave the table untouched when they raise). -/
theorem C10_zero_buckets_all_ops_fail {K V : Type} [DecidableEq K]
    [DecidableEq V] (hash : K → Int) (n : Int) (hn : n ≤ 0) (key : K) (val : V) :
    (HashTable.new n : HashTable K V).buckets = []
      ∧ (HashTable.new n : HashTable K V).bucketIndex hash key = .error .zeroDivision
      ∧ (HashTable.new n : HashTable K V).getBucket hash key = .error .zeroDivision
      ∧ (HashTable.new n : HashTable K V).get hash key = .error .zeroDivision
      ∧ (HashTable.new n : HashTable K V).contains hash key = .error .zeroDivision
      ∧ (HashTable.new n : HashTable K V).set hash key val
        = (HashTable.new n, .error .zeroDivision)
      ∧ (HashTable.new n : HashTable K V).delete hash key
        = (HashTable.new n, .error .zeroDivision) := by
  have hb : (HashTable.new n : HashTable K V).buckets = [] := by
    show List.replicate n.toNat ([] : Chain K V) = []
    rw [Int.toNat_of_nonpos hn]
    rfl
  have h0 : (HashTable.new n : HashTable K V).buckets.length = 0 := by
    rw [hb]
    rfl
  refine ⟨hb, HashTable.bucketIndex_zero _ key h0, ?_, ?_, ?_, ?_, ?_⟩
  · rw [HashTable.getBucket, HashTable.bucketIndex_zero _ key h0]
    rfl
  · rw [HashTable.get, HashTable.getBucket, HashTable.bucketIndex_zero _ key h0]
    rfl
  · rw [HashTable.contains, HashTable.getBucket, HashTable.bucketIndex_zero _ key h0]
    rfl
  · rw [HashTable.set, HashTable.bucketIndex_zero _ key h0]
  · rw [HashTable.delete, HashTable.bucketIndex_zero _ key h0]

/-- Concrete instance of C10: `new(0)` over `Nat` keys and values. -/
theorem C10_witness :
    (HashTable.new 0 : HashTable Nat Nat).buckets = []
      ∧ (HashTable.new 0 : HashTable Nat Nat).bucketIndex natHash 5 = .error .zeroDivision
      ∧ (HashTable.new 0 : HashTable Nat Nat).getBucket natHash 5 = .error .zeroDivision
      ∧ (HashTable.new 0 : HashTable Nat Nat).get natHash 5 = .error .zeroDivision
      ∧ (HashTable.new 0 : HashTable Nat Nat).contains natHash 5 = .error .zeroDivision
      ∧ (HashTable.new 0 : HashTable Nat Nat).set natHash 5 7
        = (HashTable.new 0, .error .zeroDivision)
      ∧ (HashTable.new 0 : HashTable Nat Nat).delete natHash 5
        = (HashTable.new 0, .error .zeroDivision) :=
  C10_zero_buckets_all_ops_fail natHash 0 (by decide) 5 7
